import Mathlib

/-!
Verification of the TextCorrector repository (src/TextCorrector.py): a shallow
embedding of the approximate dictionary-based text corrector, followed by
theorems about its specification.  Matrix entries of the dynamic program are
natural numbers (every numpy cell value is an exact small integer), normalized
scores are rationals, and text offsets handled by the rewriting bookkeeping are
integers, matching Python's arbitrary-precision ints.
-/

/-- Character comparison cost, from the source's distance function: cost 0 when
both characters are drawn from the whitespace set (space, newline), otherwise 0
when the characters agree case-insensitively and 1 when they differ. -/
def distance (x y : Char) : ℕ :=
  if (x = ' ' ∨ x = '\n') ∧ (y = ' ' ∨ y = '\n') then 0
  else if x.toLower = y.toLower then 0 else 1

/-- Segment intersection test from the source: x and y intersect when the end
of x is greater than the start of y and the start of x is less than the end of
y (half-open intervals). -/
def intersect (x y : ℤ × ℤ) : Bool :=
  decide (x.2 > y.1 ∧ x.1 < y.2)

/-- One pass of the inner column loop of forward (source lines 74-83): given
the query character of this row, the remaining text characters, the entry of
the previous row one column to the left (diag), the remaining entries of the
previous row (starting at the current column), and the entry just computed in
this row (left), produce the remaining entries of the current row. -/
def rowStep (qc : Char) : List Char → ℕ → List ℕ → ℕ → List ℕ
  | [], _, _, _ => []
  | _ :: _, _, [], _ => []
  | c :: cs, diag, above :: rest, left =>
    let v := min (above + 1) (min (diag + distance qc c) (left + 1))
    v :: rowStep qc cs above rest v

/-- Row i of the cost matrix E of forward: row 0 is identically zero (free
start), row i+1 starts with i+1 (E[i,0] = i) and continues by the minimum-cost
recurrence over the text columns. -/
def erow (q t : List Char) : ℕ → List ℕ
  | 0 => List.replicate (t.length + 1) 0
  | i + 1 =>
    let prev := erow q t i
    (i + 1) :: rowStep (q.getD i ' ') t (prev.headD 0) prev.tail (i + 1)

/-- Entry (i, j) of the cost matrix E. -/
def Ecell (q t : List Char) (i j : ℕ) : ℕ :=
  (erow q t i).getD j 0

/-- The three candidate costs considered at cell (i+1, j+1), in source order:
delete from query, substitute, insert into query (source lines 76-80). -/
def choices (q t : List Char) (i j : ℕ) : List ℕ :=
  [Ecell q t i (j + 1) + 1,
   Ecell q t i j + distance (q.getD i ' ') (t.getD j ' '),
   Ecell q t (i + 1) j + 1]

/-- The minimum of the three candidate costs at cell (i+1, j+1). -/
def minChoice (q t : List Char) (i j : ℕ) : ℕ :=
  min (Ecell q t i (j + 1) + 1)
    (min (Ecell q t i j + distance (q.getD i ' ') (t.getD j ' '))
      (Ecell q t (i + 1) j + 1))

/-- The decision table D of forward: row 0 records only the insert operation,
column 0 of the later rows records only the delete operation, and every other
cell records the indices (among 0 = delete, 1 = substitute, 2 = insert) of the
candidate costs attaining the minimum, in ascending index order exactly as
numpy's where produces them. -/
def Dsel (q t : List Char) (i j : ℕ) : List ℕ :=
  if i = 0 then [2]
  else if j = 0 then [0]
  else (List.range 3).filter fun k =>
    decide ((choices q t (i - 1) (j - 1)).getD k 0 = minChoice q t (i - 1) (j - 1))

/-- The end-column candidates returned by forward: every column j of the last
row whose normalized score E[m,j] / m is at most the threshold, paired with
that score.  When the query is empty, numpy's division of the cost 0.0 by the
length 0 yields NaN (not an exception), and NaN compares false against the
threshold, so no column ever passes; the first conjunct encodes exactly that
observable behaviour. -/
def ends (threshold : ℚ) (q t : List Char) : List (ℕ × ℚ) :=
  (List.range (t.length + 1)).filterMap fun j =>
    if q.length ≠ 0 ∧ (Ecell q t q.length j : ℚ) / (q.length : ℚ) ≤ threshold then
      some (j, (Ecell q t q.length j : ℚ) / (q.length : ℚ))
    else none

/-- The backward expansion of a decision cell, with an explicit fuel argument
bounding the recursion depth; fuel i + j suffices because every recorded
operation strictly decreases i + j.  A cell with i = 0 is returned as a
singleton; otherwise each operation recorded in the decision table contributes
the expansion of the corresponding predecessor cell.  The guard 0 < j on the
insert operation is vacuous for any table produced by forward (there the
column 0 cells record only the delete operation); in the source that
configuration would address the nonexistent column -1. -/
def backwardAux (D : ℕ → ℕ → List ℕ) : ℕ → ℕ × ℕ → List (ℕ × ℕ)
  | _, (0, j) => [(0, j)]
  | 0, (_ + 1, _) => []
  | f + 1, (i + 1, j) =>
    ((if 0 ∈ D (i + 1) j then backwardAux D f (i, j) else []) ++
     (if 1 ∈ D (i + 1) j then backwardAux D f (i, j - 1) else []) ++
     (if 0 < j ∧ 2 ∈ D (i + 1) j then backwardAux D f (i + 1, j - 1) else [])).dedup

/-- The backward step of the dynamic programming: expand a cell into the set
(here: deduplicated list) of reachable start cells. -/
def backward (D : ℕ → ℕ → List ℕ) (p : ℕ × ℕ) : List (ℕ × ℕ) :=
  backwardAux D (p.1 + p.2) p

/-- find: the set of candidate spans with their normalized scores.  For every
end column accepted by forward, every start column recovered by backward
contributes the span (start, end) with that score; the result has set
semantics (duplicates collapsed). -/
def find (threshold : ℚ) (text query : List Char) : List ((ℤ × ℤ) × ℚ) :=
  ((ends threshold query text).flatMap fun e =>
    (backward (Dsel query text) (query.length, e.1)).map fun y =>
      (((y.2 : ℤ), (e.1 : ℤ)), e.2)).dedup

/-- Insertion of one element into a list kept ordered by the boolean
comparison le; elements already in place for which le holds stay in front, so
the sort built on this insertion is stable, like Python's sorted. -/
def insertLe (le : α → α → Bool) (x : α) : List α → List α
  | [] => [x]
  | y :: ys => if le y x then y :: insertLe le x ys else x :: y :: ys

/-- Stable insertion sort by the boolean comparison le, modelling Python's
sorted with the corresponding key. -/
def sortLe (le : α → α → Bool) : List α → List α
  | [] => []
  | x :: xs => insertLe le x (sortLe le xs)

/-- Comparison by normalized score, the key itemgetter(1) used by
choose_positions. -/
def scoreLe (a b : (ℤ × ℤ) × ℚ) : Bool :=
  decide (a.2 ≤ b.2)

/-- Lexicographic comparison of spans, the default tuple order used by the
final sorted call of choose_positions. -/
def lexLe (a b : ℤ × ℤ) : Bool :=
  decide (a.1 < b.1 ∨ (a.1 = b.1 ∧ a.2 ≤ b.2))

/-- Comparison by descending word length, the key len with reverse=True used
by load. -/
def lenGe (a b : String) : Bool :=
  decide (b.length ≤ a.length)

/-- The greedy acceptance loop of choose_positions: walk the score-ordered
candidates, accepting a span exactly when it intersects neither an already
accepted span nor a protected interval. -/
def greedyChoose (changed : List (ℤ × ℤ)) :
    List ((ℤ × ℤ) × ℚ) → List (ℤ × ℤ) → List (ℤ × ℤ)
  | [], chosen => chosen
  | p :: ps, chosen =>
    if (chosen ++ changed).all (fun q => ! intersect p.1 q) then
      greedyChoose changed ps (chosen ++ [p.1])
    else
      greedyChoose changed ps chosen

/-- The span-selection core of choose_positions on an explicit candidate
list: sort by ascending score, greedily accept non-overlapping spans, and
return the accepted spans sorted ascending (lexicographically, hence by start
column). -/
def selectSpans (positions : List ((ℤ × ℤ) × ℚ)) (changed : List (ℤ × ℤ)) :
    List (ℤ × ℤ) :=
  sortLe lexLe (greedyChoose changed (sortLe scoreLe positions) [])

/-- choose_positions from the source: select spans among the candidates
produced by find, avoiding the protected intervals. -/
def choose_positions (threshold : ℚ) (text query : List Char)
    (changed : List (ℤ × ℤ)) : List (ℤ × ℤ) :=
  selectSpans (find threshold text query) changed

/-- The inner scan of add_positions for one chosen span p: walk the suffix of
the protected list starting at i_start, shifting by the current cumulative
shift every interval whose start is not greater than the start of p, and
insert the new interval (p.start + cum, p.start + cum + shift) in front of the
first interval whose start is greater (or append it at the end).  Returns the
rewritten suffix together with the offset, within the suffix, of the slot just
after the inserted interval (the new i_start relative to the kept prefix). -/
def scanInsert (shift : ℤ) (p : ℤ × ℤ) (cum : ℤ) :
    List (ℤ × ℤ) → List (ℤ × ℤ) × ℕ
  | [] => ([(p.1 + cum, p.1 + cum + shift)], 1)
  | q :: rest =>
    if p.1 < q.1 then
      ((p.1 + cum, p.1 + cum + shift) :: q :: rest, 1)
    else
      let r := scanInsert shift p cum rest
      ((q.1 + cum, q.2 + cum) :: r.1, r.2 + 1)

/-- The outer loop of add_positions over the chosen spans: state is the
protected list, the cumulative shift, and i_start.  After processing one span
the cumulative shift grows by shift - (p.end - p.start), as in the source. -/
def addLoop (shift : ℤ) :
    List (ℤ × ℤ) → List (ℤ × ℤ) × ℤ × ℕ → List (ℤ × ℤ) × ℤ × ℕ
  | [], st => st
  | p :: ps, (changed, cum, iStart) =>
    let r := scanInsert shift p cum (changed.drop iStart)
    addLoop shift ps
      (changed.take iStart ++ r.1, cum + shift - (p.2 - p.1), iStart + r.2)

/-- add_positions from the source.  With an empty protected list the first
span is appended specially, but the loop slice bound (Python: not
self.changed) is evaluated only after that append, hence is always 0: the
loop runs over all of positions, the first span included.  The trailing loop
applies the final cumulative shift to every interval from i_start on. -/
def add_positions (changed : List (ℤ × ℤ)) (positions : List (ℤ × ℤ))
    (shift : ℤ) : List (ℤ × ℤ) :=
  match positions with
  | [] => changed
  | p :: _ =>
    let st :=
      if changed.isEmpty then
        addLoop shift positions ([(p.1, p.1 + shift)], shift - (p.2 - p.1), 1)
      else
        addLoop shift positions (changed, 0, 0)
    st.1.take st.2.2 ++ (st.1.drop st.2.2).map fun q => (q.1 + st.2.1, q.2 + st.2.1)

/-- The splice step of correct: cut the text around the chosen spans and join
the kept segments with the query padded by one space on each side.  All
offsets arising in a run of correct are non-negative, so the conversion to
natural-number positions is exact. -/
def spliceText (text query : List Char) (chosen : List (ℤ × ℤ)) : List Char :=
  let selectors := ((0 : ℤ), (0 : ℤ)) ::
    (chosen ++ [((text.length : ℤ), (text.length : ℤ))])
  let spaced := ' ' :: (query ++ [' '])
  List.intercalate spaced ((selectors.zip selectors.tail).map fun xy =>
    (text.drop xy.1.2.toNat).take (xy.2.1.toNat - xy.1.2.toNat))

/-- One iteration of the vocabulary loop of correct: choose the spans for this
query on the current text, record them in the protected list (with
replacement width query length + 2), and rewrite the text. -/
def correctStep (threshold : ℚ) (st : List (ℤ × ℤ) × List Char)
    (query : List Char) : List (ℤ × ℤ) × List Char :=
  let chosen := choose_positions threshold st.2 query st.1
  (add_positions st.1 chosen ((query.length : ℤ) + 2), spliceText st.2 query chosen)

/-- Collapse every run of consecutive spaces to a single space, modelling the
final re.sub of correct (only the space character is affected). -/
def collapseSpaces : List Char → List Char
  | [] => []
  | c :: rest =>
    let r := collapseSpaces rest
    if c = ' ' ∧ r.head? = some ' ' then r else c :: r

/-- correct from the source: reset the protected list, fold the vocabulary
words through the per-word correction step, and collapse repeated spaces in
the final text. -/
def correct (words : List (List Char)) (threshold : ℚ) (text : List Char) :
    List Char :=
  collapseSpaces (words.foldl (correctStep threshold) (([] : List (ℤ × ℤ)), text)).2

/-- load from the source, on the word list obtained from any of the accepted
inputs (an explicit list, a set — already distinct — or the lines of a word
file): deduplicate, then sort by descending word length (Python's sorted is
stable, and so is this insertion sort). -/
def load (input_words : List String) : List String :=
  sortLe lenGe input_words.dedup

/-- The cost recurrence of the specification, stated as a recursive function:
E[0,j] = 0, E[i,0] = i, and otherwise the minimum over delete, substitute and
insert.  Used to relate the row-by-row computation of erow to the closed
recurrence. -/
def Espec (q t : List Char) (i j : ℕ) : ℕ :=
  match i, j with
  | 0, _ => 0
  | i + 1, 0 => i + 1
  | i + 1, j + 1 =>
    min (Espec q t i (j + 1) + 1)
      (min (Espec q t i j + distance (q.getD i ' ') (t.getD j ' '))
        (Espec q t (i + 1) j + 1))
termination_by (i, j)

/-- The minimal raw edit cost over all end columns of the last row: the cost
of the best-aligned substring of the text under the free-start alignment. -/
def minCost (q t : List Char) : ℕ :=
  ((List.range (t.length + 1)).map fun j => Ecell q t q.length j).foldr min
    (Ecell q t q.length 0)

/-- The minimal normalized edit distance between the query and the
best-aligned substring of the text: minimal raw cost divided by the query
length. -/
def minScore (q t : List Char) : ℚ :=
  (minCost q t : ℚ) / (q.length : ℚ)

/-- One backward step through the decision table: every operation recorded at
a cell leads to the corresponding predecessor (delete to (i-1, j), substitute
to (i-1, j-1), insert to (i, j-1)). -/
inductive BStep (D : ℕ → ℕ → List ℕ) : ℕ × ℕ → ℕ × ℕ → Prop where
  | del : ∀ i j, 0 ∈ D (i + 1) j → BStep D (i + 1, j) (i, j)
  | sub : ∀ i j, 1 ∈ D (i + 1) j → BStep D (i + 1, j) (i, j - 1)
  | ins : ∀ i j, 2 ∈ D (i + 1) j → BStep D (i + 1, j) (i + 1, j - 1)

/-- The text of the concrete scenario of the specification. -/
def sampleText : List Char := ['h', 'e', 'l', 'o', ' ', 'w', 'o', 'r', 'l', 'd']

/-- The vocabulary word of the concrete scenario. -/
def helloWord : List Char := ['h', 'e', 'l', 'l', 'o']

/-- The output the specification claims for the concrete scenario. -/
def claimedOut : List Char := ['h', 'e', 'l', 'l', 'o', ' ', 'w', 'o', 'r', 'l', 'd']

/-- The output the code actually produces for the concrete scenario: the
replacement is padded with one space on each side, the final cleanup only
collapses runs of spaces, and no leading space is trimmed. -/
def actualOut : List Char :=
  [' ', 'h', 'e', 'l', 'l', 'o', ' ', 'w', 'o', 'r', 'l', 'd']

/-! ## General lemmas about the stable insertion sort -/

theorem insertLe_perm (le : α → α → Bool) (x : α) (l : List α) :
    (insertLe le x l).Perm (x :: l) := by
  induction l with
  | nil => exact List.Perm.refl _
  | cons y ys ih =>
    by_cases h : le y x
    · simpa [insertLe, h] using (ih.cons y).trans (List.Perm.swap x y ys)
    · simp [insertLe, h]

theorem sortLe_perm (le : α → α → Bool) (l : List α) : (sortLe le l).Perm l := by
  induction l with
  | nil => exact List.Perm.refl _
  | cons x xs ih => exact (insertLe_perm le x (sortLe le xs)).trans (ih.cons x)

theorem insertLe_pairwise (le : α → α → Bool)
    (hTot : ∀ a b, le a b = true ∨ le b a = true)
    (hTr : ∀ a b c, le a b = true → le b c = true → le a c = true)
    (x : α) (l : List α) (hl : l.Pairwise fun a b => le a b = true) :
    (insertLe le x l).Pairwise fun a b => le a b = true := by
  induction l with
  | nil => simp [insertLe]
  | cons y ys ih =>
    rcases List.pairwise_cons.mp hl with ⟨hy, hys⟩
    by_cases h : le y x
    · rw [insertLe, if_pos h]
      refine List.pairwise_cons.mpr ⟨?_, ih hys⟩
      intro b hb
      rcases List.mem_cons.mp ((insertLe_perm le x ys).mem_iff.mp hb) with hb | hb
      · rw [hb]; exact h
      · exact hy b hb
    · rw [insertLe, if_neg h]
      have hx : le x y = true := (hTot x y).resolve_right (by simpa using h)
      refine List.pairwise_cons.mpr ⟨?_, hl⟩
      intro b hb
      rcases List.mem_cons.mp hb with hb | hb
      · exact hb ▸ hx
      · exact hTr x y b hx (hy b hb)

theorem sortLe_pairwise (le : α → α → Bool)
    (hTot : ∀ a b, le a b = true ∨ le b a = true)
    (hTr : ∀ a b c, le a b = true → le b c = true → le a c = true)
    (l : List α) : (sortLe le l).Pairwise fun a b => le a b = true := by
  induction l with
  | nil => simp [sortLe]
  | cons x xs ih => exact insertLe_pairwise le hTot hTr x (sortLe le xs) ih

theorem intersect_symm (a b : ℤ × ℤ) : intersect a b = intersect b a := by
  unfold intersect
  exact decide_eq_decide.mpr ⟨fun h => ⟨h.2, h.1⟩, fun h => ⟨h.2, h.1⟩⟩

/-! ## C8: properties of the character comparator -/

/-- C8: distance is symmetric; distance x x = 0 for every non-whitespace
character x; distance returns 0 exactly when both characters are in the
whitespace set or they agree case-insensitively, and 1 otherwise; the value is
always 0 or 1. -/
theorem C8_distance_properties :
    (∀ x y : Char, distance x y = distance y x) ∧
    (∀ x : Char, ¬(x = ' ' ∨ x = '\n') → distance x x = 0) ∧
    (∀ x y : Char, distance x y =
      if ((x = ' ' ∨ x = '\n') ∧ (y = ' ' ∨ y = '\n')) ∨ x.toLower = y.toLower
      then 0 else 1) ∧
    (∀ x y : Char, distance x y = 0 ∨ distance x y = 1) := by
  refine ⟨?_, ?_, ?_, ?_⟩
  · intro x y
    unfold distance
    exact if_congr and_comm rfl (if_congr eq_comm rfl rfl)
  · intro x hx
    unfold distance
    rw [if_neg fun hc => hx hc.1, if_pos rfl]
  · intro x y
    unfold distance
    by_cases h1 : (x = ' ' ∨ x = '\n') ∧ (y = ' ' ∨ y = '\n')
    · rw [if_pos h1, if_pos (Or.inl h1)]
    · rw [if_neg h1]
      by_cases h2 : x.toLower = y.toLower
      · rw [if_pos h2, if_pos (Or.inr h2)]
      · rw [if_neg h2,
          if_neg (show ¬(((x = ' ' ∨ x = '\n') ∧ (y = ' ' ∨ y = '\n')) ∨
            x.toLower = y.toLower) from fun hc => hc.elim h1 h2)]
  · intro x y
    unfold distance
    split_ifs <;> simp

/-- Witness for C8 at concrete characters. -/
theorem C8_distance_properties_witness :
    ¬(('a' : Char) = ' ' ∨ ('a' : Char) = '\n') ∧ distance 'a' 'a' = 0 :=
  ⟨by decide, C8_distance_properties.2.1 'a' (by decide)⟩

/-! ## C9: the loaded vocabulary is distinct and sorted by descending length -/

/-- C9: after load, the stored vocabulary is a list of distinct words sorted
by descending character length (the ordering therefore holds before any
correction pass begins). -/
theorem C9_load_sorted_distinct (ws : List String) :
    (load ws).Nodup ∧ (load ws).Pairwise fun a b => b.length ≤ a.length := by
  constructor
  · exact (sortLe_perm lenGe ws.dedup).nodup_iff.mpr (List.nodup_dedup ws)
  · refine (sortLe_pairwise lenGe ?_ ?_ ws.dedup).imp ?_
    · intro a b
      simp only [lenGe, decide_eq_true_eq]
      omega
    · intro a b c
      simp only [lenGe, decide_eq_true_eq]
      omega
    · intro a b h
      simpa [lenGe] using h

/-! ## C5: the selected spans are sorted, pairwise disjoint, and avoid the
protected intervals -/

theorem greedyChoose_invariant (changed : List (ℤ × ℤ)) :
    ∀ (ps : List ((ℤ × ℤ) × ℚ)) (chosen : List (ℤ × ℤ)),
      chosen.Pairwise (fun a b => intersect a b = false) →
      (∀ x ∈ chosen, ∀ q ∈ changed, intersect x q = false) →
      (greedyChoose changed ps chosen).Pairwise (fun a b => intersect a b = false) ∧
      ∀ x ∈ greedyChoose changed ps chosen, ∀ q ∈ changed, intersect x q = false := by
  intro ps
  induction ps with
  | nil => exact fun chosen h1 h2 => ⟨h1, h2⟩
  | cons p ps ih =>
    intro chosen h1 h2
    rw [greedyChoose]
    split
    case isTrue hall =>
      have hall2 : ∀ q ∈ chosen ++ changed, intersect p.1 q = false := by
        intro q hq
        have := List.all_eq_true.mp hall q hq
        simpa using this
      refine ih (chosen ++ [p.1]) ?_ ?_
      · rw [List.pairwise_append]
        refine ⟨h1, List.pairwise_singleton _ _, ?_⟩
        intro a ha b hb
        rw [List.mem_singleton.mp hb, intersect_symm]
        exact hall2 a (List.mem_append_left _ ha)
      · intro x hx q hq
        rcases List.mem_append.mp hx with hx | hx
        · exact h2 x hx q hq
        · rw [List.mem_singleton.mp hx]
          exact hall2 q (List.mem_append_right _ hq)
    case isFalse => exact ih chosen h1 h2

/-- C5: for every candidate list and every protected-interval list, the spans
returned by the selection core (sort by score, greedy accept, sort by span)
are sorted ascending by start column, pairwise non-intersecting, and none
intersects any protected interval. -/
theorem C5_selectSpans_sorted_disjoint (cands : List ((ℤ × ℤ) × ℚ))
    (changed : List (ℤ × ℤ)) :
    (selectSpans cands changed).Pairwise (fun a b => a.1 ≤ b.1) ∧
    (selectSpans cands changed).Pairwise (fun a b => intersect a b = false) ∧
    ∀ p ∈ selectSpans cands changed, ∀ q ∈ changed, intersect p q = false := by
  have hg := greedyChoose_invariant changed (sortLe scoreLe cands) []
    (List.Pairwise.nil) (by simp)
  have hperm := sortLe_perm lexLe (greedyChoose changed (sortLe scoreLe cands) [])
  refine ⟨?_, ?_, ?_⟩
  · refine (sortLe_pairwise lexLe ?_ ?_ _).imp ?_
    · intro a b
      simp only [lexLe, decide_eq_true_eq]
      omega
    · intro a b c
      simp only [lexLe, decide_eq_true_eq]
      omega
    · intro a b h
      have := decide_eq_true_eq.mp h
      omega
  · exact (hperm.pairwise_iff fun h =>
      (intersect_symm _ _) ▸ h).mpr hg.1
  · intro p hp q hq
    exact hg.2 p (hperm.mem_iff.mp hp) q hq

/-! ## C1: add_positions duplicates the first chosen span when the protected
list starts empty -/

/-- C1 (failing evaluation): on the empty protected list, one chosen span
(0, 4) and replacement width 7, add_positions yields two overlapping
intervals, (0, 7) and (3, 10), for the single span.  The Python slice bound
(not self.changed) is evaluated after the first interval has been appended,
so the loop processes positions[0] a second time; the claimed post-condition
(one interval per span, pairwise disjoint) fails. -/
theorem C1_add_positions_inserts_first_span_twice :
    add_positions [] [((0 : ℤ), 4)] 7 = [((0 : ℤ), 7), (3, 10)] ∧
    ¬ (add_positions [] [((0 : ℤ), 4)] 7).Pairwise
        (fun a b => intersect a b = false) := by
  constructor
  · decide
  · intro h
    have he : add_positions [] [((0 : ℤ), 4)] 7 = [((0 : ℤ), 7), (3, 10)] := by
      decide
    rw [he] at h
    have h2 := (List.pairwise_cons.mp h).1 (3, 10) (List.mem_singleton_self _)
    exact absurd h2 (by decide)

/-! ## C6: degenerate zero-length query -/

theorem filterMap_none_eq_nil (l : List α) (f : α → Option β)
    (hf : ∀ a, f a = none) : l.filterMap f = [] := by
  induction l with
  | nil => rfl
  | cons a l ih => rw [List.filterMap_cons, hf a, ih]

/-- C6 (amended): for a zero-length query, find returns no spans; nothing is
raised.  In the source, numpy divides the cost 0.0 by the length 0 producing
NaN (with a warning, not an exception), NaN compares false against the
threshold, so the end-column list is empty and the call returns normally. -/
theorem C6_empty_query_matches_nothing (threshold : ℚ) (text : List Char) :
    find threshold text [] = [] := by
  have he : ends threshold [] text = [] := by
    unfold ends
    refine filterMap_none_eq_nil _ _ fun j => ?_
    exact if_neg fun hc => hc.1 rfl
  unfold find
  rw [he]
  rfl

/-- C6 (counterexample to the raised-condition part of the claim): on a
concrete text, find with the empty query evaluates to the empty list — the
call returns a normal value; no degenerate-input condition is raised by the
code. -/
theorem C6_empty_query_returns_normally :
    find (3 / 10) sampleText [] = [] := by
  decide

/-! ## C7: backward reaches exactly the row-zero cells along recorded
operations -/

theorem Dsel_col0 (q t : List Char) (i : ℕ) : Dsel q t (i + 1) 0 = [0] := by
  simp [Dsel]

theorem mem_Dsel_iff (q t : List Char) (i j k : ℕ) :
    k ∈ Dsel q t (i + 1) (j + 1) ↔
      k < 3 ∧ (choices q t i j).getD k 0 = minChoice q t i j := by
  simp [Dsel, List.mem_filter, List.mem_range]

theorem mem_ite_nil {c : α} {P : Prop} [Decidable P] {l : List α} :
    (c ∈ if P then l else []) ↔ P ∧ c ∈ l := by
  split <;> simp_all

theorem backwardAux_zero_row (q t : List Char) (f j : ℕ) (c : ℕ × ℕ) :
    c ∈ backwardAux (Dsel q t) f (0, j) ↔
      c.1 = 0 ∧ Relation.ReflTransGen (BStep (Dsel q t)) (0, j) c := by
  have hbw : backwardAux (Dsel q t) f (0, j) = [(0, j)] := by
    cases f <;> rfl
  rw [hbw, List.mem_singleton]
  constructor
  · rintro rfl
    exact ⟨rfl, Relation.ReflTransGen.refl⟩
  · rintro ⟨hc, hr⟩
    rcases hr.cases_head with h | ⟨b, hstep, _⟩
    · exact h.symm
    · cases hstep

theorem backwardAux_mem_iff (q t : List Char) :
    ∀ (f : ℕ) (p : ℕ × ℕ) (c : ℕ × ℕ), p.1 + p.2 ≤ f →
      (c ∈ backwardAux (Dsel q t) f p ↔
        c.1 = 0 ∧ Relation.ReflTransGen (BStep (Dsel q t)) p c) := by
  intro f
  induction f with
  | zero =>
    rintro ⟨i, j⟩ c hp
    have hi : i = 0 := by simp at hp; omega
    subst hi
    exact backwardAux_zero_row q t 0 j c
  | succ f ih =>
    rintro ⟨i, j⟩ c hp
    cases i with
    | zero => exact backwardAux_zero_row q t (f + 1) j c
    | succ i =>
      simp only at hp
      simp only [backwardAux, List.mem_dedup, List.mem_append, mem_ite_nil]
      constructor
      · rintro ((⟨hop, hmem⟩ | ⟨hop, hmem⟩) | ⟨⟨hj, hop⟩, hmem⟩)
        · have h := (ih (i, j) c (by simp; omega)).mp hmem
          exact ⟨h.1, Relation.ReflTransGen.head (BStep.del i j hop) h.2⟩
        · have h := (ih (i, j - 1) c (by simp; omega)).mp hmem
          exact ⟨h.1, Relation.ReflTransGen.head (BStep.sub i j hop) h.2⟩
        · have h := (ih (i + 1, j - 1) c (by simp; omega)).mp hmem
          exact ⟨h.1, Relation.ReflTransGen.head (BStep.ins i j hop) h.2⟩
      · rintro ⟨hc, hr⟩
        rcases hr.cases_head with h | ⟨b, hstep, hr2⟩
        · rw [← h] at hc
          simp at hc
        · cases hstep with
          | del i2 j2 hop =>
            exact Or.inl (Or.inl ⟨hop, (ih (i, j) c (by simp; omega)).mpr ⟨hc, hr2⟩⟩)
          | sub i2 j2 hop =>
            exact Or.inl (Or.inr ⟨hop, (ih (i, j - 1) c (by simp; omega)).mpr ⟨hc, hr2⟩⟩)
          | ins i2 j2 hop =>
            have hj : 0 < j := by
              rcases Nat.eq_zero_or_pos j with hj0 | hj0
              · rw [hj0, Dsel_col0] at hop
                simp at hop
              · exact hj0
            exact Or.inr ⟨⟨hj, hop⟩,
              (ih (i + 1, j - 1) c (by simp; omega)).mpr ⟨hc, hr2⟩⟩

/-- C7: for every decision table produced by forward, the backward expansion
of any cell is total (the embedding carries fuel i + j, which the strictly
decreasing recorded operations never exhaust), every returned cell lies in
row 0, and a cell belongs to the result exactly when it is a row-0 cell
reachable by following, at each cell, every operation recorded in the
table. -/
theorem C7_backward_reaches_row_zero (q t : List Char) (p : ℕ × ℕ) :
    (∀ c ∈ backward (Dsel q t) p, c.1 = 0) ∧
    ∀ c, c ∈ backward (Dsel q t) p ↔
      c.1 = 0 ∧ Relation.ReflTransGen (BStep (Dsel q t)) p c := by
  have h := fun c => backwardAux_mem_iff q t (p.1 + p.2) p c le_rfl
  exact ⟨fun c hc => ((h c).mp hc).1, h⟩

/-! ## The row-by-row computation of forward satisfies the cost recurrence -/

theorem Espec_zero (q t : List Char) (j : ℕ) : Espec q t 0 j = 0 := by
  simp only [Espec]

theorem Espec_col0 (q t : List Char) (i : ℕ) : Espec q t (i + 1) 0 = i + 1 := by
  simp only [Espec]

theorem Espec_succ (q t : List Char) (i j : ℕ) :
    Espec q t (i + 1) (j + 1) =
      min (Espec q t i (j + 1) + 1)
        (min (Espec q t i j + distance (q.getD i ' ') (t.getD j ' '))
          (Espec q t (i + 1) j + 1)) := by
  simp only [Espec]

theorem headD_eq_getD (l : List α) (d : α) : l.headD d = l.getD 0 d := by
  cases l <;> rfl

theorem getD_replicate_zero : ∀ n j : ℕ, (List.replicate n (0 : ℕ)).getD j 0 = 0 := by
  intro n
  induction n with
  | zero => intro j; cases j <;> rfl
  | succ n ih =>
    intro j
    cases j with
    | zero => rfl
    | succ j =>
      rw [List.replicate_succ, List.getD_cons_succ]
      exact ih j

theorem rowStep_length (qc : Char) :
    ∀ (cs : List Char) (rest : List ℕ) (diag left : ℕ),
      (rowStep qc cs diag rest left).length = min cs.length rest.length := by
  intro cs
  induction cs with
  | nil => intro rest diag left; simp [rowStep]
  | cons c cs ih =>
    intro rest diag left
    cases rest with
    | nil => simp [rowStep]
    | cons a rest =>
      simp only [rowStep, List.length_cons, ih]
      omega

theorem erow_length (q t : List Char) : ∀ i, (erow q t i).length = t.length + 1 := by
  intro i
  induction i with
  | zero => simp [erow]
  | succ i ih =>
    simp only [erow, List.length_cons, rowStep_length, List.length_tail, ih]
    omega

theorem Ecell_succ_eq (q t : List Char) (i j : ℕ) :
    Ecell q t (i + 1) (j + 1) =
      (rowStep (q.getD i ' ') t ((erow q t i).headD 0) (erow q t i).tail
        (i + 1)).getD j 0 := rfl

theorem rowStep_getD_spec (q t : List Char) (i : ℕ)
    (ihrow : ∀ j, j ≤ t.length → Ecell q t i j = Espec q t i j) :
    ∀ k s : ℕ, s + k < t.length →
      (rowStep (q.getD i ' ') (t.drop s) (Ecell q t i s)
          ((erow q t i).drop (s + 1)) (Espec q t (i + 1) s)).getD k 0
        = Espec q t (i + 1) (s + k + 1) := by
  intro k
  induction k with
  | zero =>
    intro s hs
    have hs' : s < t.length := by omega
    have hlen : s + 1 < (erow q t i).length := by rw [erow_length]; omega
    rw [List.drop_eq_getElem_cons hs', List.drop_eq_getElem_cons hlen]
    simp only [rowStep, List.getD_cons_zero]
    have hget : (erow q t i)[s + 1] = Ecell q t i (s + 1) :=
      (List.getD_eq_getElem _ _ hlen).symm
    have htc : t[s] = t.getD s ' ' := (List.getD_eq_getElem _ _ hs').symm
    rw [hget, htc, ihrow (s + 1) (by omega), ihrow s (by omega)]
    exact (Espec_succ q t i s).symm
  | succ k ihk =>
    intro s hs
    have hs' : s < t.length := by omega
    have hlen : s + 1 < (erow q t i).length := by rw [erow_length]; omega
    rw [List.drop_eq_getElem_cons hs', List.drop_eq_getElem_cons hlen]
    simp only [rowStep, List.getD_cons_succ]
    have hget : (erow q t i)[s + 1] = Ecell q t i (s + 1) :=
      (List.getD_eq_getElem _ _ hlen).symm
    have htc : t[s] = t.getD s ' ' := (List.getD_eq_getElem _ _ hs').symm
    rw [hget, htc, ihrow (s + 1) (by omega), ihrow s (by omega), ← Espec_succ,
      ← ihrow (s + 1) (by omega)]
    have h := ihk (s + 1) (by omega)
    rw [show s + (k + 1) + 1 = s + 1 + k + 1 by omega]
    exact h

theorem Ecell_eq_Espec (q t : List Char) :
    ∀ i j, j ≤ t.length → Ecell q t i j = Espec q t i j := by
  intro i
  induction i with
  | zero =>
    intro j hj
    rw [Espec_zero]
    exact getD_replicate_zero (t.length + 1) j
  | succ i ih =>
    intro j hj
    cases j with
    | zero => rw [Espec_col0]; rfl
    | succ j =>
      have h := rowStep_getD_spec q t i ih j 0 (by omega)
      simp only [Nat.zero_add, List.drop_zero, List.drop_one, Espec_col0] at h
      have h1 : Ecell q t i 0 = (erow q t i).headD 0 := (headD_eq_getD _ _).symm
      rw [h1] at h
      rw [Ecell_succ_eq]
      exact h

/-! ## C4: the forward pass computes the specified matrix, decision table and
end set -/

/-- C4: the cost matrix satisfies E[0,j] = 0 and E[i,0] = i with the
three-way minimum recurrence inside the matrix; the decision table holds
exactly the operation indices attaining the minimum (with row 0 recording
insert and column 0 recording delete); and the end set contains exactly the
pairs (j, E[m,j]/m) for the columns whose normalized score is at most the
threshold. -/
theorem C4_forward_matrix (q t : List Char) (threshold : ℚ) (i j : ℕ)
    (hi : i < q.length) (hj : j < t.length) :
    (∀ j2, Ecell q t 0 j2 = 0) ∧
    (∀ i2, Ecell q t (i2 + 1) 0 = i2 + 1) ∧
    Ecell q t (i + 1) (j + 1) =
      min (Ecell q t i (j + 1) + 1)
        (min (Ecell q t i j + distance (q.getD i ' ') (t.getD j ' '))
          (Ecell q t (i + 1) j + 1)) ∧
    (∀ j2, Dsel q t 0 j2 = [2]) ∧
    (∀ i2, Dsel q t (i2 + 1) 0 = [0]) ∧
    (∀ k, k ∈ Dsel q t (i + 1) (j + 1) ↔
      k < 3 ∧ (choices q t i j).getD k 0 = minChoice q t i j) ∧
    ∀ j2 s, (j2, s) ∈ ends threshold q t ↔
      j2 < t.length + 1 ∧
      s = (Ecell q t q.length j2 : ℚ) / (q.length : ℚ) ∧ s ≤ threshold := by
  refine ⟨fun j2 => getD_replicate_zero (t.length + 1) j2,
    fun i2 => rfl, ?_, fun j2 => by simp [Dsel],
    fun i2 => Dsel_col0 q t i2, fun k => mem_Dsel_iff q t i j k, ?_⟩
  · have hb := Ecell_eq_Espec q t
    rw [hb (i + 1) (j + 1) (by omega), hb i (j + 1) (by omega),
      hb i j (by omega), hb (i + 1) j (by omega)]
    exact Espec_succ q t i j
  · intro j2 s
    unfold ends
    rw [List.mem_filterMap]
    constructor
    · rintro ⟨a, ha, hfa⟩
      rw [List.mem_range] at ha
      by_cases hcond : q.length ≠ 0 ∧
          (Ecell q t q.length a : ℚ) / (q.length : ℚ) ≤ threshold
      · rw [if_pos hcond] at hfa
        have hinj : a = j2 ∧ (Ecell q t q.length a : ℚ) / (q.length : ℚ) = s := by
          simpa using hfa
        obtain ⟨rfl, hs⟩ := hinj
        exact ⟨ha, hs.symm, hs ▸ hcond.2⟩
      · rw [if_neg hcond] at hfa
        exact absurd hfa (by simp)
    · rintro ⟨hlt, rfl, hle⟩
      refine ⟨j2, List.mem_range.mpr hlt, ?_⟩
      rw [if_pos ⟨by omega, hle⟩]

/-- Witness for C4 on the concrete scenario inputs at cell (1, 1). -/
theorem C4_forward_matrix_witness :
    (0 < helloWord.length ∧ 0 < sampleText.length) ∧
    ((∀ j2, Ecell helloWord sampleText 0 j2 = 0) ∧
    (∀ i2, Ecell helloWord sampleText (i2 + 1) 0 = i2 + 1) ∧
    Ecell helloWord sampleText (0 + 1) (0 + 1) =
      min (Ecell helloWord sampleText 0 (0 + 1) + 1)
        (min (Ecell helloWord sampleText 0 0 +
            distance (helloWord.getD 0 ' ') (sampleText.getD 0 ' '))
          (Ecell helloWord sampleText (0 + 1) 0 + 1)) ∧
    (∀ j2, Dsel helloWord sampleText 0 j2 = [2]) ∧
    (∀ i2, Dsel helloWord sampleText (i2 + 1) 0 = [0]) ∧
    (∀ k, k ∈ Dsel helloWord sampleText (0 + 1) (0 + 1) ↔
      k < 3 ∧ (choices helloWord sampleText 0 0).getD k 0 =
        minChoice helloWord sampleText 0 0) ∧
    ∀ j2 s, (j2, s) ∈ ends (3 / 10) helloWord sampleText ↔
      j2 < sampleText.length + 1 ∧
      s = (Ecell helloWord sampleText helloWord.length j2 : ℚ) /
        (helloWord.length : ℚ) ∧ s ≤ 3 / 10) :=
  ⟨⟨by decide, by decide⟩,
    C4_forward_matrix helloWord sampleText (3 / 10) 0 0 (by decide) (by decide)⟩

/-! ## C3: find surfaces the minimal normalized score -/

theorem foldr_min_mem (l : List ℕ) (init : ℕ) :
    l.foldr min init = init ∨ l.foldr min init ∈ l := by
  induction l with
  | nil => simp
  | cons a l ih =>
    simp only [List.foldr_cons]
    rcases min_choice a (l.foldr min init) with h | h
    · right
      rw [h]
      exact List.mem_cons_self a l
    · rcases ih with h2 | h2
      · left
        rw [h, h2]
      · right
        rw [h]
        exact List.mem_cons_of_mem a h2

theorem minCost_attained (q t : List Char) :
    ∃ j, j ≤ t.length ∧ Ecell q t q.length j = minCost q t := by
  unfold minCost
  rcases foldr_min_mem ((List.range (t.length + 1)).map fun j => Ecell q t q.length j)
      (Ecell q t q.length 0) with h | h
  · exact ⟨0, by omega, h.symm⟩
  · rw [List.mem_map] at h
    obtain ⟨j, hj, hje⟩ := h
    exact ⟨j, by have := List.mem_range.mp hj; omega, hje⟩

theorem exists_argmin_choices (q t : List Char) (i j : ℕ) :
    ∃ k, k < 3 ∧ (choices q t i j).getD k 0 = minChoice q t i j := by
  rcases min_choice (Ecell q t i (j + 1) + 1)
      (min (Ecell q t i j + distance (q.getD i ' ') (t.getD j ' '))
        (Ecell q t (i + 1) j + 1)) with h | h
  · exact ⟨0, by omega, h.symm⟩
  · rcases min_choice (Ecell q t i j + distance (q.getD i ' ') (t.getD j ' '))
        (Ecell q t (i + 1) j + 1) with h2 | h2
    · exact ⟨1, by omega, (h.trans h2).symm⟩
    · exact ⟨2, by omega, (h.trans h2).symm⟩

theorem Dsel_nonempty (q t : List Char) (i j : ℕ) : Dsel q t i j ≠ [] := by
  unfold Dsel
  split
  · simp
  · split
    · simp
    · intro hnil
      obtain ⟨k, hk3, hke⟩ := exists_argmin_choices q t (i - 1) (j - 1)
      have hmem : k ∈ (List.range 3).filter fun k =>
          decide ((choices q t (i - 1) (j - 1)).getD k 0 =
            minChoice q t (i - 1) (j - 1)) :=
        List.mem_filter.mpr ⟨List.mem_range.mpr hk3, by simpa using hke⟩
      rw [hnil] at hmem
      exact absurd hmem (List.not_mem_nil k)

theorem backwardAux_ne_nil (q t : List Char) :
    ∀ (f : ℕ) (p : ℕ × ℕ), p.1 + p.2 ≤ f → backwardAux (Dsel q t) f p ≠ [] := by
  intro f
  induction f with
  | zero =>
    rintro ⟨i, j⟩ hp
    have hi : i = 0 := by simp at hp; omega
    subst hi
    simp [backwardAux]
  | succ f ih =>
    rintro ⟨i, j⟩ hp
    cases i with
    | zero => simp [backwardAux]
    | succ i =>
      simp only at hp
      have hmain : ∃ x, x ∈ backwardAux (Dsel q t) (f + 1) (i + 1, j) := by
        rcases Nat.eq_zero_or_pos j with rfl | hj
        · obtain ⟨x, hx⟩ :=
            List.exists_mem_of_ne_nil _ (ih (i, 0) (by simp; omega))
          refine ⟨x, ?_⟩
          simp only [backwardAux, List.mem_dedup, List.mem_append, mem_ite_nil]
          exact Or.inl (Or.inl ⟨by rw [Dsel_col0]; simp, hx⟩)
        · obtain ⟨op, hop⟩ :=
            List.exists_mem_of_ne_nil _ (Dsel_nonempty q t (i + 1) j)
          have hop3 : op < 3 := by
            obtain ⟨j0, rfl⟩ : ∃ j0, j = j0 + 1 := ⟨j - 1, by omega⟩
            exact ((mem_Dsel_iff q t i j0 op).mp hop).1
          interval_cases op
          · obtain ⟨x, hx⟩ :=
              List.exists_mem_of_ne_nil _ (ih (i, j) (by simp; omega))
            refine ⟨x, ?_⟩
            simp only [backwardAux, List.mem_dedup, List.mem_append, mem_ite_nil]
            exact Or.inl (Or.inl ⟨hop, hx⟩)
          · obtain ⟨x, hx⟩ :=
              List.exists_mem_of_ne_nil _ (ih (i, j - 1) (by simp; omega))
            refine ⟨x, ?_⟩
            simp only [backwardAux, List.mem_dedup, List.mem_append, mem_ite_nil]
            exact Or.inl (Or.inr ⟨hop, hx⟩)
          · obtain ⟨x, hx⟩ :=
              List.exists_mem_of_ne_nil _ (ih (i + 1, j - 1) (by simp; omega))
            refine ⟨x, ?_⟩
            simp only [backwardAux, List.mem_dedup, List.mem_append, mem_ite_nil]
            exact Or.inr ⟨⟨hj, hop⟩, hx⟩
      obtain ⟨x, hx⟩ := hmain
      intro hnil
      rw [hnil] at hx
      exact absurd hx (List.not_mem_nil x)

theorem backward_ne_nil (q t : List Char) (p : ℕ × ℕ) :
    backward (Dsel q t) p ≠ [] :=
  backwardAux_ne_nil q t (p.1 + p.2) p le_rfl

/-- C3: for every text and non-empty query, if the threshold is at least the
minimal normalized edit distance to the best-aligned substring, then find
contains a (span, score) pair whose score equals that minimal normalized
distance. -/
theorem C3_find_attains_min_score (text query : List Char) (threshold : ℚ)
    (hq : query ≠ []) (hth : minScore query text ≤ threshold) :
    ∃ sp s, (sp, s) ∈ find threshold text query ∧ s = minScore query text := by
  obtain ⟨j, hj, hje⟩ := minCost_attained query text
  have hm : query.length ≠ 0 := by
    cases query with
    | nil => exact absurd rfl hq
    | cons a l => simp
  have hscore : (Ecell query text query.length j : ℚ) / (query.length : ℚ) =
      minScore query text := by
    rw [hje]
    rfl
  have hmem_ends : (j, minScore query text) ∈ ends threshold query text := by
    unfold ends
    rw [List.mem_filterMap]
    refine ⟨j, List.mem_range.mpr (by omega), ?_⟩
    rw [if_pos ⟨hm, by rw [hscore]; exact hth⟩, hscore]
  obtain ⟨y, hy⟩ :=
    List.exists_mem_of_ne_nil _ (backward_ne_nil query text (query.length, j))
  refine ⟨((y.2 : ℤ), (j : ℤ)), minScore query text, ?_, rfl⟩
  unfold find
  rw [List.mem_dedup, List.mem_flatMap]
  exact ⟨(j, minScore query text), hmem_ends, List.mem_map.mpr ⟨y, hy, rfl⟩⟩

/-- A one-character word used by concrete witnesses. -/
def wordA : List Char := ['a']

/-- Witness for C3: with query and text both the single character a and
threshold 1, the minimal normalized distance is 0 and find attains it. -/
theorem C3_find_attains_min_score_witness :
    (wordA ≠ [] ∧ minScore wordA wordA ≤ 1) ∧
    ∃ sp s, (sp, s) ∈ find 1 wordA wordA ∧ s = minScore wordA wordA :=
  ⟨⟨by decide, by
    unfold minScore
    rw [show minCost wordA wordA = 0 from by decide]
    norm_num⟩,
    C3_find_attains_min_score wordA wordA 1 (by decide) (by
      unfold minScore
      rw [show minCost wordA wordA = 0 from by decide]
      norm_num)⟩

/-! ## C10: correcting the empty text -/

theorem ends_nil_text (threshold : ℚ) (q : List Char) (hth : threshold < 1) :
    ends threshold q [] = [] := by
  have hcond : ¬(q.length ≠ 0 ∧
      (Ecell q [] q.length 0 : ℚ) / (q.length : ℚ) ≤ threshold) := by
    rintro ⟨hm, hle⟩
    have hE : Ecell q [] q.length 0 = q.length := by
      rcases Nat.exists_eq_succ_of_ne_zero hm with ⟨n, hn⟩
      rw [hn]
      rfl
    rw [hE, div_self (Nat.cast_ne_zero.mpr hm)] at hle
    exact absurd hle (not_le.mpr hth)
  unfold ends
  simp only [List.length_nil, Nat.zero_add]
  rw [show List.range 1 = [0] from rfl]
  simp only [List.filterMap_cons, if_neg hcond, List.filterMap_nil]

theorem find_nil_text (threshold : ℚ) (q : List Char) (hth : threshold < 1) :
    find threshold [] q = [] := by
  unfold find
  rw [ends_nil_text threshold q hth]
  rfl

theorem choose_positions_nil_text (threshold : ℚ) (q : List Char)
    (changed : List (ℤ × ℤ)) (hth : threshold < 1) :
    choose_positions threshold [] q changed = [] := by
  unfold choose_positions selectSpans
  rw [find_nil_text threshold q hth]
  rfl

theorem correctStep_nil (threshold : ℚ) (q : List Char) (hth : threshold < 1) :
    correctStep threshold (([] : List (ℤ × ℤ)), ([] : List Char)) q = ([], []) := by
  unfold correctStep
  rw [choose_positions_nil_text threshold q [] hth]
  rfl

theorem foldl_correctStep_nil (threshold : ℚ) (hth : threshold < 1) :
    ∀ words : List (List Char),
      words.foldl (correctStep threshold)
        (([] : List (ℤ × ℤ)), ([] : List Char)) = ([], []) := by
  intro words
  induction words with
  | nil => rfl
  | cons w ws ih =>
    rw [List.foldl_cons, correctStep_nil threshold w hth]
    exact ih

/-- C10: for every vocabulary and every threshold strictly below 1, correct
applied to the empty text returns the empty text: the single end column of an
empty text has normalized score 1 (or a NaN score for an empty query), which
fails the threshold test, so no replacement ever occurs. -/
theorem C10_correct_empty_text (words : List (List Char)) (threshold : ℚ)
    (hth : threshold < 1) : correct words threshold [] = [] := by
  unfold correct
  rw [foldl_correctStep_nil threshold hth words]
  rfl

/-- Witness for C10 with a one-word vocabulary and threshold one half. -/
theorem C10_correct_empty_text_witness :
    (1 / 2 : ℚ) < 1 ∧ correct [wordA] (1 / 2) [] = [] :=
  ⟨by norm_num, C10_correct_empty_text [wordA] (1 / 2) (by norm_num)⟩

/-! ## C2: the concrete scenario -/

theorem ends_sample : ends (3 / 10) helloWord sampleText = [(4, 1 / 5)] := by
  have h0 : Ecell helloWord sampleText 5 0 = 5 := by decide
  have h1 : Ecell helloWord sampleText 5 1 = 4 := by decide
  have h2 : Ecell helloWord sampleText 5 2 = 3 := by decide
  have h3 : Ecell helloWord sampleText 5 3 = 2 := by decide
  have h4 : Ecell helloWord sampleText 5 4 = 1 := by decide
  have h5 : Ecell helloWord sampleText 5 5 = 2 := by decide
  have h6 : Ecell helloWord sampleText 5 6 = 3 := by decide
  have h7 : Ecell helloWord sampleText 5 7 = 3 := by decide
  have h8 : Ecell helloWord sampleText 5 8 = 4 := by decide
  have h9 : Ecell helloWord sampleText 5 9 = 4 := by decide
  have h10 : Ecell helloWord sampleText 5 10 = 4 := by decide
  unfold ends
  norm_num [show List.range (sampleText.length + 1) = [0, 1, 2, 3, 4, 5, 6, 7, 8, 9, 10]
      from by decide,
    show helloWord.length = 5 from rfl, List.filterMap_cons,
    h0, h1, h2, h3, h4, h5, h6, h7, h8, h9, h10]

theorem find_sample :
    find (3 / 10) sampleText helloWord = [(((0 : ℤ), (4 : ℤ)), 1 / 5)] := by
  have hb : backward (Dsel helloWord sampleText) (helloWord.length, 4) = [(0, 0)] := by
    decide
  unfold find
  rw [ends_sample]
  simp only [List.flatMap_cons, List.flatMap_nil, hb, List.map_cons, List.map_nil,
    List.append_nil]
  simp [List.dedup_cons_of_not_mem]

theorem chosen_sample :
    choose_positions (3 / 10) sampleText helloWord [] = [((0 : ℤ), 4)] := by
  unfold choose_positions selectSpans
  rw [find_sample]
  rfl

/-- C2 (counterexample): with vocabulary consisting of hello, threshold 0.3
and input text helo world, correct does not return the claimed string hello
world — the replacement is padded with one space on each side and the leading
space survives the final whitespace collapse. -/
theorem C2_correct_output_differs :
    correct [helloWord] (3 / 10) sampleText ≠ claimedOut := by
  show collapseSpaces
      (spliceText sampleText helloWord
        (choose_positions (3 / 10) sampleText helloWord [])) ≠ claimedOut
  rw [chosen_sample]
  decide

/-- C2 (amended): on the concrete scenario the code returns the string with a
single leading space: space hello space world. -/
theorem C2_correct_output_exact :
    correct [helloWord] (3 / 10) sampleText = actualOut := by
  show collapseSpaces
      (spliceText sampleText helloWord
        (choose_positions (3 / 10) sampleText helloWord [])) = actualOut
  rw [chosen_sample]
  decide
